import Mathlib

/-!
Shallow embedding of the JUnit-XML AI-enrichment pipeline of
jenkins-job-insight, from `conftest_junit_ai.py` and
`conftest_junit_ai_utils.py`.  Pure Python string functions are embedded as
structural functions on character lists; the XML element tree is a nested
inductive; file-system effects of `enrich_junit_xml` are explicit state
passing over a two-file state (report and backup); exceptions are an
`Option String` "raised" component.
-/

/-! ## Python string primitives -/

/-- Python `str.split(sep)` worker for a non-empty `sep`: scan the input,
cutting a segment at each non-overlapping occurrence of `sep`.  `acc` holds
the current segment reversed; the fuel is at least the input length, so the
fuel-0 case is never reached. -/
def pySplitFuel (sep : List Char) : Nat → List Char → List Char → List (List Char)
  | _, [], acc => [acc.reverse]
  | 0, l, acc => [acc.reverse ++ l]
  | fuel + 1, c :: cs, acc =>
    if sep.isPrefixOf (c :: cs) then
      acc.reverse :: pySplitFuel sep fuel ((c :: cs).drop sep.length) []
    else
      pySplitFuel sep fuel cs (c :: acc)

/-- Python `str.split(sep)` for a non-empty separator, e.g.
`"a::b".split("::") == ["a", "b"]` and `"".split("::") == [""]`. -/
def pySplit (sep s : String) : List String :=
  (pySplitFuel sep.data s.data.length s.data []).map String.mk

/-- Python `str.replace(old, new)` worker for non-empty `old`: replace every
non-overlapping occurrence, scanning left to right. -/
def pyReplaceFuel (pat rep : List Char) : Nat → List Char → List Char
  | _, [] => []
  | 0, l => l
  | fuel + 1, c :: cs =>
    if pat.isPrefixOf (c :: cs) then
      rep ++ pyReplaceFuel pat rep fuel ((c :: cs).drop pat.length)
    else
      c :: pyReplaceFuel pat rep fuel cs

/-- Python `str.replace(old, new)` for a non-empty `old`. -/
def pyReplace (pat rep s : String) : String :=
  String.mk (pyReplaceFuel pat.data rep.data s.data.length s.data)

/-- Python `str.removesuffix(suf)`: drop `suf` once from the end when present. -/
def pyRemovesuffix (s suf : String) : String :=
  if suf.data.isSuffixOf s.data then
    String.mk (s.data.take (s.data.length - suf.data.length))
  else s

/-- Python `str.rstrip("/")`: drop every trailing slash. -/
def pyRstripSlash (s : String) : String :=
  String.mk ((s.data.reverse.dropWhile (fun c => c == '/')).reverse)

/-- Python `", ".join(l)`. -/
def joinComma (l : List String) : String :=
  String.mk (List.intercalate (", ".data) (l.map String.data))

/-- Python truthiness of an optional string: `None` and `""` are falsy. -/
def truthy : Option String → Bool
  | none => false
  | some s => s != ""

/-! ## Identifier Translator -/

/-- `nodeid_to_classname_and_name` (conftest_junit_ai_utils.py, lines 17-31):
convert a pytest nodeid to the JUnit XML `(classname, name)` pair.  The module
is `parts[0]` with `/` replaced by `.` and a trailing `.py` stripped; three
segments give `(module.group, name)`, two give `(module, name)`, anything else
falls back to `("", nodeid)`. -/
def nodeid_to_classname_and_name (nodeid : String) : String × String :=
  let parts := pySplit "::" nodeid
  let module := pyRemovesuffix (pyReplace "/" "." (parts.headD "")) ".py"
  match parts with
  | [_, grp, nm] => (module ++ "." ++ grp, nm)
  | [_, nm] => (module, nm)
  | _ => ("", nodeid)

/-! ## Data model: analysis payloads and XML elements -/

/-- The `code_fix` sub-object of an analysis payload. -/
structure CodeFix where
  file : String
  line : String
  change : String
deriving DecidableEq

/-- The `product_bug_report` sub-object of an analysis payload. -/
structure BugReport where
  title : String
  severity : String
  component : String
  description : String
deriving DecidableEq

/-- One analysis payload as consumed by `inject_analysis`: missing string
fields are already defaulted to `""` (matching `analysis.get(key, "")`), and
`none` for a sub-object covers a missing, empty or non-dict value (all falsy
under `if code_fix and isinstance(code_fix, dict)`). -/
structure Analysis where
  classification : String
  details : String
  affected_tests : List String
  code_fix : Option CodeFix
  product_bug_report : Option BugReport
deriving DecidableEq

/-- An `xml.etree.ElementTree` element: tag, attribute list (document order),
text (Python `None` is represented as `""`, which `system-out` handling treats
identically via `system_out.text or ""`), and child elements. -/
structure Elem where
  tag : String
  attrs : List (String × String)
  text : String
  children : List Elem

instance : Inhabited Elem := ⟨⟨"", [], "", []⟩⟩

/-- `Element.get(key, "")`: the value of the first attribute named `key`. -/
def Elem.get (e : Elem) (key : String) : String :=
  (List.lookup key e.attrs).getD ""

/-- A fresh `<property name=... value=...>` element. -/
def propElem (nm v : String) : Elem :=
  ⟨"property", [("name", nm), ("value", v)], "", []⟩

/-- `add_property` (utils lines 85-90): append a property element to the
properties element when the value is non-empty (Python truthy). -/
def add_property (properties : Elem) (nm v : String) : Elem :=
  if v != "" then { properties with children := properties.children ++ [propElem nm v] }
  else properties

/-- The sequence of `add_property` calls of `inject_analysis` (utils lines
46-68) applied to the properties element. -/
def applyProps (analysis : Analysis) (pr : Elem) : Elem :=
  let pr := add_property pr "ai_classification" analysis.classification
  let pr := add_property pr "ai_details" analysis.details
  let pr := if analysis.affected_tests.isEmpty then pr
            else add_property pr "ai_affected_tests" (joinComma analysis.affected_tests)
  let pr := match analysis.code_fix with
    | some cf =>
        add_property (add_property (add_property pr
          "ai_code_fix_file" cf.file) "ai_code_fix_line" cf.line) "ai_code_fix_change" cf.change
    | none => pr
  let pr := match analysis.product_bug_report with
    | some b =>
        add_property (add_property (add_property (add_property pr
          "ai_bug_title" b.title) "ai_bug_severity" b.severity)
          "ai_bug_component" b.component) "ai_bug_description" b.description
    | none => pr
  pr

/-- `format_analysis_text` (utils lines 93-120). -/
def format_analysis_text (analysis : Analysis) : String :=
  let parts : List String := []
  let parts := if analysis.classification != "" then
      parts ++ ["Classification: " ++ analysis.classification] else parts
  let parts := if analysis.details != "" then
      parts ++ ["\n" ++ analysis.details] else parts
  let parts := match analysis.code_fix with
    | some cf => parts ++ ["\nCode Fix:", "  File: " ++ cf.file,
        "  Line: " ++ cf.line, "  Change: " ++ cf.change]
    | none => parts
  let parts := match analysis.product_bug_report with
    | some b => parts ++ ["\nProduct Bug:", "  Title: " ++ b.title,
        "  Severity: " ++ b.severity, "  Component: " ++ b.component,
        "  Description: " ++ b.description]
    | none => parts
  if parts.isEmpty then "" else String.intercalate "\n" parts

/-- Predicate for the `testcase.find("properties")` lookup. -/
def isPropsTag (c : Elem) : Bool := c.tag == "properties"

/-- Predicate for the `testcase.find("system-out")` lookup. -/
def isSysOutTag (c : Elem) : Bool := c.tag == "system-out"

/-- Apply `g` to the first list element satisfying `p` (in-place mutation of
the element found by `Element.find`). -/
def updateFirst (p : Elem → Bool) (g : Elem → Elem) : List Elem → List Elem
  | [] => []
  | c :: cs => if p c then g c :: cs else c :: updateFirst p g cs

/-- The `system-out` text update (utils lines 78-82): append the analysis text
after a delimiter when prior content exists. -/
def appendSysOut (existing text : String) : String :=
  if existing != "" then existing ++ "\n\n--- AI Analysis ---\n" ++ text
  else text

/-- `inject_analysis` (utils lines 34-82): append the analysis properties to
the testcase's first `properties` child (creating one at the end when absent),
then append the human-readable text to the first `system-out` child (creating
one when absent), when that text is non-empty. -/
def inject_analysis (testcase : Elem) (analysis : Analysis) : Elem :=
  let tc1 :=
    match testcase.children.find? isPropsTag with
    | some _ =>
        let cs := updateFirst isPropsTag (fun pr => applyProps analysis pr) testcase.children
        { testcase with children := cs }
    | none =>
        let cs := testcase.children ++ [applyProps analysis ⟨"properties", [], "", []⟩]
        { testcase with children := cs }
  let text := format_analysis_text analysis
  if text != "" then
    match tc1.children.find? isSysOutTag with
    | some _ =>
        let g := fun so => { so with text := appendSysOut so.text text }
        { tc1 with children := updateFirst isSysOutTag g tc1.children }
    | none =>
        { tc1 with children := tc1.children ++ [⟨"system-out", [], text, []⟩] }
  else tc1

/-! ## Report Mutator -/

/-- The analysis index: `(classname, name)` keys to analysis payloads, in
Python dict insertion order. -/
abbrev AnalysisMap := List ((String × String) × Analysis)

/-- Python dict assignment `m[k] = v`: overwrite in place or append. -/
def upsert (m : AnalysisMap) (k : String × String) (v : Analysis) : AnalysisMap :=
  match m with
  | [] => [(k, v)]
  | (k', v') :: rest => if k' == k then (k, v) :: rest else (k', v') :: upsert rest k v

mutual

/-- The rewrite loop of `enrich_junit_xml` (utils lines 186-190): every
element of the tree whose tag is `testcase` and whose `(classname, name)` is a
key of the analysis map gets `inject_analysis` applied.  Children are
processed before the element's own injection; this matches the source's
`tree.iter` order because the elements `inject_analysis` adds never carry the
tag `testcase`, so they are never injected into either way. -/
def enrichElem (amap : AnalysisMap) : Elem → Elem
  | ⟨t, a, x, cs⟩ =>
    let e : Elem := ⟨t, a, x, enrichChildren amap cs⟩
    if t == "testcase" then
      match List.lookup (e.get "classname", e.get "name") amap with
      | some analysis => inject_analysis e analysis
      | none => e
    else e

/-- Pointwise `enrichElem` over a child list. -/
def enrichChildren (amap : AnalysisMap) : List Elem → List Elem
  | [] => []
  | c :: cs => enrichElem amap c :: enrichChildren amap cs

end

/-- Content of a file on disk: a well-formed XML document (what `tree.write`
produces and `ET.parse` accepts) or raw bytes that do not parse. -/
inductive FileContent where
  | xml (doc : Elem)
  | raw (s : String)

/-- The two files `enrich_junit_xml` touches: the report at `xml_path` and the
sibling backup at `xml_path.with_suffix(".xml.bak")`; `none` means absent. -/
structure FS where
  report : Option FileContent
  backup : Option FileContent

/-- `ET.parse`: succeeds exactly on well-formed content. -/
def parseFile : FileContent → Except String Elem
  | .xml doc => .ok doc
  | .raw s => .error ("ParseError: " ++ s)

/-- Injected faults for the mutation window, mirroring the spec's "simulated
write error": fail while injecting, or fail during `tree.write`. -/
inductive MutStep where
  | inject
  | write
deriving DecidableEq

/-- The guarded mutation of `enrich_junit_xml` (utils lines 181-198):
`shutil.copy2` the report to the backup, then try parse / inject / write; on
success unlink the backup; on any failure copy the backup over the report,
unlink the backup, and re-raise.  Returns the final file state and the raised
exception, if any. -/
def mutateReport (content : FileContent) (amap : AnalysisMap)
    (failAt : Option MutStep) : FS × Option String :=
  let fs1 : FS := ⟨some content, some content⟩
  match parseFile content with
  | .error e => (⟨fs1.backup, none⟩, some e)
  | .ok doc =>
    if failAt = some .inject then (⟨fs1.backup, none⟩, some "InjectionError")
    else
      let doc2 := enrichElem amap doc
      if failAt = some .write then (⟨fs1.backup, none⟩, some "WriteError")
      else (⟨some (FileContent.xml doc2), none⟩, none)

/-! ## Analysis Client and Orchestrator -/

/-- One collected failure record (conftest_junit_ai.py lines 54-63).  The
`duration` float is never inspected by the pipeline and is embedded as a
natural number. -/
structure FailureRecord where
  test_name : String
  error_message : String
  stack_trace : String
  duration : Nat
  status : String
  phase : String

/-- One entry of the response's `failures` list: a JSON object carrying a
`test_name` (missing defaults to `""`) and an `analysis` (`none` covers a
missing or empty dict, both falsy), or a non-object value, on which
`failure.get` raises `AttributeError`. -/
inductive RespEntry where
  | obj (test_name : String) (analysis : Option Analysis)
  | nonObj (descr : String)

/-- Whether a response entry is a JSON object. -/
def RespEntry.isObj : RespEntry → Bool
  | .obj _ _ => true
  | .nonObj _ => false

/-- The outcome of the single HTTP POST: a 2xx response with a decoded JSON
body, or any `requests.RequestException` (connection error, timeout, non-2xx
from `raise_for_status`, undecodable JSON). -/
inductive HttpOutcome where
  | ok (failures : List RespEntry)
  | requestError (msg : String)

/-- The one request `enrich_junit_xml` can issue. -/
structure HttpRequest where
  url : String
  payloadFailures : List FailureRecord
  ai_provider : String
  ai_model : String
  timeout : Nat

/-- Session configuration: `session.config.option.xmlpath` and the `JJI_*`
environment variables (`none` = unset), plus whether `import requests`
succeeded.  `JJI_TIMEOUT` is embedded at the spec's interface granularity as
seconds. -/
structure EnrichConfig where
  requestsAvailable : Bool
  xmlpath : Option String
  serverUrl : Option String
  aiProvider : Option String
  aiModel : Option String
  timeoutEnv : Option Nat

/-- Observable outcome of one `enrich_junit_xml` call: final file state, the
requests issued, warning- and error-level log lines, the analysis map built,
and the exception propagated to the caller, if any. -/
structure EnrichResult where
  fs : FS
  requests : List HttpRequest
  warnings : List String
  errors : List String
  amap : AnalysisMap
  raised : Option String

/-- The loop of utils lines 170-176 building `analysis_map`: `failure.get` on
a non-object entry raises `AttributeError` (aborting the loop — it is outside
any `try`); an object entry is added when both `test_name` and `analysis` are
truthy, keyed through `nodeid_to_classname_and_name`, and skipped otherwise. -/
def buildAnalysisMap : List RespEntry → AnalysisMap → Except String AnalysisMap
  | [], acc => .ok acc
  | .nonObj d :: _, _ =>
    .error ("AttributeError: " ++ d ++ " has no attribute get")
  | .obj tn oan :: rest, acc =>
    match oan with
    | some analysis =>
      if tn == "" then buildAnalysisMap rest acc
      else buildAnalysisMap rest (upsert acc (nodeid_to_classname_and_name tn) analysis)
    | none => buildAnalysisMap rest acc

/-- `enrich_junit_xml` (utils lines 123-198).  `report` is the content of the
file at `xmlpath` (`none` = absent); `httpOutcome` is the network's answer to
the request, consulted only if one is issued; `failAt` injects faults into the
mutation window. -/
def enrich_junit_xml (cfg : EnrichConfig) (collected_failures : List FailureRecord)
    (report : Option FileContent) (httpOutcome : HttpOutcome)
    (failAt : Option MutStep) : EnrichResult :=
  let fs0 : FS := ⟨report, none⟩
  if !cfg.requestsAvailable then ⟨fs0, [], [], [], [], none⟩
  else if !truthy cfg.xmlpath || report.isNone || collected_failures.isEmpty then
    ⟨fs0, [], [], [], [], none⟩
  else if !truthy cfg.serverUrl then
    ⟨fs0, [], ["JJI_SERVER_URL not set, skipping AI analysis enrichment"], [], [], none⟩
  else if !truthy cfg.aiProvider || !truthy cfg.aiModel then
    ⟨fs0, [], ["JJI_AI_PROVIDER and JJI_AI_MODEL must be set, skipping AI analysis enrichment"],
      [], [], none⟩
  else
    let req : HttpRequest :=
      ⟨pyRstripSlash (cfg.serverUrl.getD "") ++ "/analyze-failures",
        collected_failures, cfg.aiProvider.getD "", cfg.aiModel.getD "",
        cfg.timeoutEnv.getD 600⟩
    match httpOutcome with
    | .requestError msg =>
      ⟨fs0, [req], [], ["Server request failed: " ++ msg], [], none⟩
    | .ok respFailures =>
      match buildAnalysisMap respFailures [] with
      | .error e => ⟨fs0, [req], [], [], [], some e⟩
      | .ok amap =>
        if amap.isEmpty then ⟨fs0, [req], [], [], amap, none⟩
        else
          match report with
          | some content =>
            let (fs', raised) := mutateReport content amap failAt
            ⟨fs', [req], [], [], amap, raised⟩
          | none => ⟨fs0, [req], [], [], amap, none⟩

/-! ## Observations on documents and sessions -/

/-- The per-field variant of `add_property`: the property elements one
`add_property` call contributes. -/
def addIf (nm v : String) : List Elem := if v != "" then [propElem nm v] else []

/-- The full batch of property elements `inject_analysis` appends for one
analysis payload, in call order. -/
def propsToAdd (analysis : Analysis) : List Elem :=
  addIf "ai_classification" analysis.classification
  ++ addIf "ai_details" analysis.details
  ++ (if analysis.affected_tests.isEmpty then []
      else addIf "ai_affected_tests" (joinComma analysis.affected_tests))
  ++ (match analysis.code_fix with
      | some cf => addIf "ai_code_fix_file" cf.file ++ addIf "ai_code_fix_line" cf.line
          ++ addIf "ai_code_fix_change" cf.change
      | none => [])
  ++ (match analysis.product_bug_report with
      | some b => addIf "ai_bug_title" b.title ++ addIf "ai_bug_severity" b.severity
          ++ addIf "ai_bug_component" b.component ++ addIf "ai_bug_description" b.description
      | none => [])

/-- All property elements sitting under `properties` children of a child
list, in document order. -/
def propsOfList (cs : List Elem) : List Elem :=
  (cs.filter isPropsTag).flatMap Elem.children

/-- All property elements sitting under `properties` children of a testcase. -/
def propsOf (tc : Elem) : List Elem := propsOfList tc.children

/-- How many `property` elements of the list carry the given `name`. -/
def countName (ps : List Elem) (nm : String) : Nat :=
  (ps.filter (fun p => p.tag == "property" && p.get "name" == nm)).length

/-- How many `property` elements named `nm` a testcase's `properties`
children hold. -/
def propCount (tc : Elem) (nm : String) : Nat := countName (propsOf tc) nm

/-- Whether the testcase carries a `property` with the given name and value. -/
def hasPropNV (tc : Elem) (nm v : String) : Bool :=
  (propsOf tc).any (fun p => p.tag == "property" && p.get "name" == nm && p.get "value" == v)

/-- The text of the testcase's first `system-out` child (`""` when absent). -/
def sysOutTextOf (tc : Elem) : String :=
  match tc.children.find? isSysOutTag with
  | some so => so.text
  | none => ""

/-- Substring test (for a non-empty pattern): splitting on the pattern yields
more than one segment exactly when it occurs. -/
def containsStr (s sub : String) : Bool := 2 ≤ (pySplit sub s).length

/-- All preconditions `enrich_junit_xml` checks before issuing its request:
importable requests, a truthy configured report path whose file exists, a
non-empty collected-failure list, and truthy endpoint, provider and model. -/
def precondsHold (cfg : EnrichConfig) (collected_failures : List FailureRecord)
    (report : Option FileContent) : Bool :=
  cfg.requestsAvailable && truthy cfg.xmlpath && report.isSome
    && !collected_failures.isEmpty && truthy cfg.serverUrl
    && truthy cfg.aiProvider && truthy cfg.aiModel

/-- Structure preservation between documents: `Extends e f` holds when `f`
keeps the tag, all attributes and (as a prefix) the text of `e`, and the
children of `f` start with, in order, one extension of each child of `e`,
followed only by appended children. -/
inductive Extends : Elem → Elem → Prop where
  | mk : ∀ (t : String) (a : List (String × String)) (x x' : String)
      (cs ext rest : List Elem),
      x.data <+: x'.data →
      cs.length = ext.length →
      (∀ p ∈ List.zip cs ext, Extends p.1 p.2) →
      Extends ⟨t, a, x, cs⟩ ⟨t, a, x', ext ++ rest⟩

/-- The child-list form of `Extends`: `ds` starts with pointwise extensions
of `cs` and continues with appended elements. -/
def LExt (cs ds : List Elem) : Prop :=
  ∃ ext rest, ds = ext ++ rest ∧ cs.length = ext.length ∧
    ∀ p ∈ List.zip cs ext, Extends p.1 p.2

/-- Recursion principle for `Elem` that provides the inductive hypothesis for
every child. -/
def elemInd (P : Elem → Prop)
    (h : ∀ t a x cs, (∀ c ∈ cs, P c) → P (Elem.mk t a x cs)) : ∀ e, P e
  | ⟨t, a, x, cs⟩ => h t a x cs (fun c hc => elemInd P h c)
termination_by e => sizeOf e
decreasing_by
  have := List.sizeOf_lt_of_mem hc
  simp only [Elem.mk.sizeOf_spec]
  omega

/-! ## pytest hooks (conftest_junit_ai.py) -/

/-- Outcome of one `pytest_runtest_makereport` call: the failure list after
the call, warnings logged, and the exception propagated to pytest, if any. -/
structure CollectResult where
  collected : List FailureRecord
  warnings : List String
  raised : Option String

/-- `pytest_runtest_makereport` (conftest_junit_ai.py lines 44-65).
`excinfo` is `none` when the phase passed (`call.excinfo` is `None`);
otherwise it carries the outcome of extracting the failure dict (building
`str(call.excinfo.value)` or `str(call.excinfo.getrepr())` may itself raise).
The whole body is wrapped in `try/except Exception`. -/
def pytest_runtest_makereport (collected : List FailureRecord)
    (excinfo : Option (Except String FailureRecord)) : CollectResult :=
  match excinfo with
  | none => ⟨collected, [], none⟩
  | some (.ok r) => ⟨collected ++ [r], [], none⟩
  | some (.error e) => ⟨collected, ["Failed to collect failure data: " ++ e], none⟩

/-- Outcome of `pytest_sessionfinish`: the inner enrichment outcome, the
error-level log lines of the hook itself, and the exception propagated to
pytest, if any. -/
structure SessionFinishResult where
  enrich : EnrichResult
  errors : List String
  raised : Option String

/-- `pytest_sessionfinish` (conftest_junit_ai.py lines 68-78): run
`enrich_junit_xml` inside `try/except Exception`, logging any exception at
error level and never re-raising. -/
def pytest_sessionfinish (cfg : EnrichConfig) (collected_failures : List FailureRecord)
    (report : Option FileContent) (httpOutcome : HttpOutcome)
    (failAt : Option MutStep) : SessionFinishResult :=
  let r := enrich_junit_xml cfg collected_failures report httpOutcome failAt
  match r.raised with
  | some e => ⟨r, ["Failed to enrich JUnit XML, original preserved: " ++ e], none⟩
  | none => ⟨r, [], none⟩

/-! ## Concrete fixtures -/

/-- The analysis payload of the spec's concrete scenario (claim C9). -/
def analysisC9 : Analysis := ⟨"CODE ISSUE", "missing import", [], none, none⟩

/-- The response entry of the concrete scenario. -/
def entryC9 : RespEntry := .obj "tests/test_foo.py::TestClass::test_bar" (some analysisC9)

/-- The testcase of the concrete scenario. -/
def tcC9 : Elem :=
  ⟨"testcase", [("classname", "tests.test_foo.TestClass"), ("name", "test_bar")], "", []⟩

/-- A report document holding the scenario's testcase. -/
def docC9 : Elem := ⟨"testsuite", [], "", [tcC9]⟩

/-- The analysis index the scenario's response builds. -/
def amapC9 : AnalysisMap := [(("tests.test_foo.TestClass", "test_bar"), analysisC9)]

/-- The scenario's enriched testcase. -/
def tcC9out : Elem := (enrichElem amapC9 docC9).children.headD default

/-- A fully-set configuration: requests importable, report path and all
environment variables present. -/
def cfgFull : EnrichConfig :=
  ⟨true, some "report.xml", some "http://server", some "claude", some "model-a", none⟩

/-- A well-formed report file. -/
def reportDoc : FileContent := .xml ⟨"testsuite", [], "", []⟩

/-- One collected failure. -/
def failRec : FailureRecord :=
  ⟨"tests/test_foo.py::TestClass::test_bar", "boom", "trace", 1, "FAILED", "call"⟩

/-- A response whose `failures` list holds one well-formed object entry
followed by one non-object entry (claim C8). -/
def respC8 : List RespEntry := [entryC9, .nonObj "a string entry"]

/-- A minimal analysis payload used for the double-enrichment run (claim C2). -/
def analysisC2 : Analysis := ⟨"X", "", [], none, none⟩

/-- The matched testcase of the double-enrichment run. -/
def tcC2 : Elem := ⟨"testcase", [("classname", "m"), ("name", "t")], "", []⟩

/-- The document of the double-enrichment run. -/
def docC2 : Elem := ⟨"testsuite", [], "", [tcC2]⟩

/-- The analysis index of the double-enrichment run. -/
def amapC2 : AnalysisMap := [(("m", "t"), analysisC2)]

/-- The document after one enrichment run. -/
def docC2once : Elem := enrichElem amapC2 docC2

/-- The document after two enrichment runs. -/
def docC2twice : Elem := enrichElem amapC2 docC2once

/-- The matched testcase after two enrichment runs. -/
def tcC2twice : Elem := docC2twice.children.headD default

/-! ## Helper lemmas -/

theorem add_property_eq (pr : Elem) (nm v : String) :
    add_property pr nm v = { pr with children := pr.children ++ addIf nm v } := by
  cases pr with
  | mk t a x cs =>
    unfold add_property addIf
    split <;> simp

theorem applyProps_eq (analysis : Analysis) (pr : Elem) :
    applyProps analysis pr = { pr with children := pr.children ++ propsToAdd analysis } := by
  rcases analysis with ⟨c, d, af, cf, bg⟩
  unfold applyProps propsToAdd
  simp only [add_property_eq]
  rcases cf with - | ⟨f, l, ch⟩ <;> rcases bg with - | ⟨ti, se, co, de⟩ <;>
    by_cases haf : af.isEmpty <;>
      simp [haf, List.append_assoc]

theorem countName_append (ps qs : List Elem) (nm : String) :
    countName (ps ++ qs) nm = countName ps nm + countName qs nm := by
  simp [countName, List.filter_append]

theorem countName_addIf_self (nm v : String) :
    countName (addIf nm v) nm = if v != "" then 1 else 0 := by
  unfold addIf countName
  split <;> simp [propElem, Elem.get, List.lookup]

theorem countName_addIf_of_ne {nm nm' : String} (h : (nm == nm') = false) (v : String) :
    countName (addIf nm v) nm' = 0 := by
  unfold addIf countName
  split <;> simp [propElem, Elem.get, List.lookup, h]

theorem countName_nil (nm : String) : countName [] nm = 0 := rfl

theorem countName_propsToAdd_classification (analysis : Analysis) :
    countName (propsToAdd analysis) "ai_classification"
      = if analysis.classification != "" then 1 else 0 := by
  rcases analysis with ⟨c, d, af, cf, bg⟩
  unfold propsToAdd
  rcases cf with - | ⟨f, l, ch⟩ <;> rcases bg with - | ⟨ti, se, co, de⟩ <;>
    by_cases haf : af.isEmpty <;>
      simp [haf, countName_append, countName_addIf_self, countName_addIf_of_ne,
        countName_nil]

/-! ## Claim C4 -/

/-- C4: the Identifier Translator is a total function (totality and
determinism are inherent in the embedding); with exactly one `::` separator
(two segments) it returns the file path with `/` replaced by `.` and a `.py`
suffix stripped, paired with the final segment; with exactly two separators
(three segments) it appends the middle segment to the derived group; with any
other segment count it falls back to `("", identifier)` unchanged. -/
theorem C4_identifier_translator (s : String) :
    (∀ p n, pySplit "::" s = [p, n] →
      nodeid_to_classname_and_name s = (pyRemovesuffix (pyReplace "/" "." p) ".py", n)) ∧
    (∀ p g n, pySplit "::" s = [p, g, n] →
      nodeid_to_classname_and_name s
        = (pyRemovesuffix (pyReplace "/" "." p) ".py" ++ "." ++ g, n)) ∧
    ((pySplit "::" s).length ≠ 2 → (pySplit "::" s).length ≠ 3 →
      nodeid_to_classname_and_name s = ("", s)) := by
  refine ⟨?_, ?_, ?_⟩
  · intro p n h
    simp [nodeid_to_classname_and_name, h]
  · intro p g n h
    simp [nodeid_to_classname_and_name, h]
  · intro h2 h3
    unfold nodeid_to_classname_and_name
    cases hps : pySplit "::" s with
    | nil => simp
    | cons a t =>
      cases t with
      | nil => simp
      | cons b t2 =>
        cases t2 with
        | nil => exact absurd (by rw [hps]; rfl) h2
        | cons c t3 =>
          cases t3 with
          | nil => exact absurd (by rw [hps]; rfl) h3
          | cons d t4 => simp

/-- Witness for C4 at the spec's own example identifiers. -/
theorem C4_identifier_translator_witness :
    (pySplit "::" "tests/test_foo.py::test_bar" = ["tests/test_foo.py", "test_bar"] ∧
      nodeid_to_classname_and_name "tests/test_foo.py::test_bar"
        = (pyRemovesuffix (pyReplace "/" "." "tests/test_foo.py") ".py", "test_bar")) ∧
    (pySplit "::" "a::b::c::d" = ["a", "b", "c", "d"] ∧
      nodeid_to_classname_and_name "a::b::c::d" = ("", "a::b::c::d")) :=
  ⟨⟨by decide, (C4_identifier_translator "tests/test_foo.py::test_bar").1
      "tests/test_foo.py" "test_bar" (by decide)⟩,
    ⟨by decide, (C4_identifier_translator "a::b::c::d").2.2 (by decide) (by decide)⟩⟩

/-! ## Claim C3 -/

/-- C3: exceptions raised inside the enrichment chain are caught at
`pytest_sessionfinish` and never propagated; `pytest_runtest_makereport`
never raises, and an extraction error drops only that record (the collected
list is unchanged) while logging a warning and continuing. -/
theorem C3_hook_boundary_containment :
    (∀ cfg collected_failures report httpOutcome failAt,
      (pytest_sessionfinish cfg collected_failures report httpOutcome failAt).raised
        = none) ∧
    (∀ collected excinfo,
      (pytest_runtest_makereport collected excinfo).raised = none) ∧
    (∀ collected e,
      (pytest_runtest_makereport collected (some (Except.error e))).collected = collected
        ∧ (pytest_runtest_makereport collected (some (Except.error e))).warnings ≠ []) := by
  refine ⟨?_, ?_, ?_⟩
  · intro cfg collected_failures report httpOutcome failAt
    unfold pytest_sessionfinish
    cases h : (enrich_junit_xml cfg collected_failures report httpOutcome failAt).raised <;>
      simp [h]
  · intro collected excinfo
    rcases excinfo with - | (e | r) <;> rfl
  · intro collected e
    exact ⟨rfl, by simp [pytest_runtest_makereport]⟩

/-! ## Claim C10 -/

/-- C10: when `import requests` failed, `enrich_junit_xml` returns
immediately for every input: no request, no file change, no warning and no
error logged, nothing raised. -/
theorem C10_requests_missing_silent_noop
    (xp su ap am : Option String) (te : Option Nat)
    (collected_failures : List FailureRecord) (report : Option FileContent)
    (httpOutcome : HttpOutcome) (failAt : Option MutStep) :
    enrich_junit_xml ⟨false, xp, su, ap, am, te⟩ collected_failures report httpOutcome failAt
      = ⟨⟨report, none⟩, [], [], [], [], none⟩ := rfl

/-! ## Claim C9 -/

/-- C9: the concrete scenario: the nodeid
`tests/test_foo.py::TestClass::test_bar` translates to
`(tests.test_foo.TestClass, test_bar)`; the response entry builds exactly the
expected analysis index; and the enriched matching testcase carries a
property `ai_classification = "CODE ISSUE"` and a `system-out` text
containing `Classification: CODE ISSUE`. -/
theorem C9_concrete_scenario_end_to_end :
    nodeid_to_classname_and_name "tests/test_foo.py::TestClass::test_bar"
      = ("tests.test_foo.TestClass", "test_bar") ∧
    buildAnalysisMap [entryC9] [] = Except.ok amapC9 ∧
    hasPropNV tcC9out "ai_classification" "CODE ISSUE" = true ∧
    containsStr (sysOutTextOf tcC9out) "Classification: CODE ISSUE" = true :=
  ⟨by decide, rfl, by decide, by decide⟩

/-! ## Claim C1 -/

theorem mutateReport_spec (content : FileContent) (amap : AnalysisMap)
    (failAt : Option MutStep) :
    ((mutateReport content amap failAt).2.isSome = true →
      (mutateReport content amap failAt).1 = ⟨some content, none⟩) ∧
    ((mutateReport content amap failAt).2 = none →
      (mutateReport content amap failAt).1.backup = none) := by
  unfold mutateReport parseFile
  cases content <;>
    by_cases h1 : failAt = some MutStep.inject <;>
      by_cases h2 : failAt = some MutStep.write <;>
        simp [h1, h2]

/-- C1: whenever the report file exists and `enrich_junit_xml` re-raises (any
failure of parsing, injecting or serializing after the backup copy was made,
and any earlier raise as well), the report content is byte-identical to its
pre-enrichment content and the backup file no longer exists; when nothing is
raised, the backup file is likewise absent. -/
theorem C1_backup_restore_atomicity (cfg : EnrichConfig)
    (collected_failures : List FailureRecord) (content : FileContent)
    (httpOutcome : HttpOutcome) (failAt : Option MutStep) :
    ((enrich_junit_xml cfg collected_failures (some content) httpOutcome failAt).raised.isSome
        = true →
      (enrich_junit_xml cfg collected_failures (some content) httpOutcome failAt).fs
        = ⟨some content, none⟩) ∧
    ((enrich_junit_xml cfg collected_failures (some content) httpOutcome failAt).raised
        = none →
      (enrich_junit_xml cfg collected_failures (some content) httpOutcome failAt).fs.backup
        = none) := by
  unfold enrich_junit_xml
  split
  · simp
  · split
    · simp
    · split
      · simp
      · split
        · simp
        · cases httpOutcome with
          | requestError msg => simp
          | ok respFailures =>
            cases hb : buildAnalysisMap respFailures [] with
            | error e => simp [hb]
            | ok amap =>
              simp only [hb]
              cases amap with
              | nil => simp
              | cons hd tl =>
                have hspec := mutateReport_spec content (hd :: tl) failAt
                exact ⟨fun hr => hspec.1 hr, fun hr => hspec.2 hr⟩

/-- Witness for C1: a simulated write failure on a fully configured session
leaves the report identical and removes the backup. -/
theorem C1_backup_restore_atomicity_witness :
    ((enrich_junit_xml cfgFull [failRec] (some reportDoc) (.ok [entryC9])
        (some .write)).raised.isSome = true) ∧
    ((enrich_junit_xml cfgFull [failRec] (some reportDoc) (.ok [entryC9])
        (some .write)).fs = ⟨some reportDoc, none⟩) :=
  ⟨rfl, (C1_backup_restore_atomicity cfgFull [failRec] reportDoc (.ok [entryC9])
      (some .write)).1 rfl⟩

/-! ## Claim C5 -/

/-- C5 counterexample: with every other precondition satisfied but an empty
collected-failure list, `enrich_junit_xml` returns silently — no request, no
file change, empty mapping, and crucially an empty warning log — refuting the
claim that a warning is logged for this missing precondition. -/
theorem C5_counterexample_empty_failures_no_warning :
    (enrich_junit_xml cfgFull [] (some reportDoc) (.requestError "conn") none).warnings
        = [] ∧
    (enrich_junit_xml cfgFull [] (some reportDoc) (.requestError "conn") none).requests
        = [] ∧
    (enrich_junit_xml cfgFull [] (some reportDoc) (.requestError "conn") none).fs
        = ⟨some reportDoc, none⟩ ∧
    (enrich_junit_xml cfgFull [] (some reportDoc) (.requestError "conn") none).amap = [] :=
  ⟨rfl, rfl, rfl, rfl⟩

/-- C5 (amended): whenever a precondition is missing — empty collected-failure
sequence, unset/empty service endpoint, or empty provider or model — no
request is issued, no file is touched, no analysis mapping is built and
nothing is raised; a warning is logged when the missing precondition is the
endpoint or the provider/model (with the report path set, the file present
and failures non-empty), but an empty collected-failure sequence returns
silently with no warning. -/
theorem C5_missing_precondition_skip (cfg : EnrichConfig)
    (collected_failures : List FailureRecord) (report : Option FileContent)
    (httpOutcome : HttpOutcome) (failAt : Option MutStep)
    (hmiss : collected_failures = [] ∨ truthy cfg.serverUrl = false ∨
      truthy cfg.aiProvider = false ∨ truthy cfg.aiModel = false) :
    (enrich_junit_xml cfg collected_failures report httpOutcome failAt).requests = [] ∧
    (enrich_junit_xml cfg collected_failures report httpOutcome failAt).fs
      = ⟨report, none⟩ ∧
    (enrich_junit_xml cfg collected_failures report httpOutcome failAt).amap = [] ∧
    (enrich_junit_xml cfg collected_failures report httpOutcome failAt).raised = none ∧
    (truthy cfg.xmlpath = true → report.isSome = true → collected_failures ≠ [] →
      cfg.requestsAvailable = true →
      (enrich_junit_xml cfg collected_failures report httpOutcome failAt).warnings
        ≠ []) := by
  unfold enrich_junit_xml
  by_cases hreq : cfg.requestsAvailable
  · by_cases hxp : truthy cfg.xmlpath
    · cases report with
      | none => simp [hreq, hxp]
      | some content =>
        cases collected_failures with
        | nil => simp [hreq, hxp]
        | cons fr frs =>
          rcases hmiss with hmiss | hmiss | hmiss | hmiss
          · exact absurd hmiss (by simp)
          · simp [hreq, hxp, hmiss]
          · by_cases hsu : truthy cfg.serverUrl <;> simp [hreq, hxp, hsu, hmiss]
          · by_cases hsu : truthy cfg.serverUrl <;> simp [hreq, hxp, hsu, hmiss]
    · simp [hreq, hxp]
  · simp [hreq]

/-- Witness for C5 (amended) at an unset endpoint with failures collected:
skip with a warning logged. -/
theorem C5_missing_precondition_skip_witness :
    (truthy (none : Option String) = false ∨ True) ∧
    (enrich_junit_xml ⟨true, some "report.xml", none, some "claude", some "model-a", none⟩
        [failRec] (some reportDoc) (.requestError "conn") none).requests = [] ∧
    (enrich_junit_xml ⟨true, some "report.xml", none, some "claude", some "model-a", none⟩
        [failRec] (some reportDoc) (.requestError "conn") none).warnings ≠ [] := by
  have h := C5_missing_precondition_skip
    ⟨true, some "report.xml", none, some "claude", some "model-a", none⟩
    [failRec] (some reportDoc) (.requestError "conn") none
    (Or.inr (Or.inl (by decide)))
  exact ⟨Or.inl (by decide), h.1, h.2.2.2.2 (by decide) (by decide) (by simp) (by decide)⟩

/-! ## Claim C6 -/

/-- C6: at most one HTTP request is ever issued (no retry), exactly one when
all preconditions hold; the timeout defaults to 600 seconds when `JJI_TIMEOUT`
is unset; and a request failure (network error, timeout or non-2xx) makes the
pipeline return with the report untouched, nothing raised, and an error
logged. -/
theorem C6_single_request_default_timeout_no_retry (cfg : EnrichConfig)
    (collected_failures : List FailureRecord) (report : Option FileContent)
    (httpOutcome : HttpOutcome) (failAt : Option MutStep) :
    (enrich_junit_xml cfg collected_failures report httpOutcome failAt).requests.length
        ≤ 1 ∧
    (precondsHold cfg collected_failures report = true →
      (enrich_junit_xml cfg collected_failures report httpOutcome failAt).requests.length
          = 1 ∧
      (cfg.timeoutEnv = none →
        ∀ q ∈ (enrich_junit_xml cfg collected_failures report httpOutcome failAt).requests,
          q.timeout = 600) ∧
      (∀ msg, httpOutcome = HttpOutcome.requestError msg →
        (enrich_junit_xml cfg collected_failures report httpOutcome failAt).fs
            = ⟨report, none⟩ ∧
        (enrich_junit_xml cfg collected_failures report httpOutcome failAt).raised = none ∧
        (enrich_junit_xml cfg collected_failures report httpOutcome failAt).errors ≠ [])) := by
  constructor
  · unfold enrich_junit_xml
    split
    · simp
    · split
      · simp
      · split
        · simp
        · split
          · simp
          · cases httpOutcome with
            | requestError msg => simp
            | ok respFailures =>
              cases hb : buildAnalysisMap respFailures [] with
              | error e => simp [hb]
              | ok amap =>
                simp only [hb]
                cases amap with
                | nil => simp
                | cons hd tl =>
                  cases report with
                  | none => simp
                  | some content => simp
  · intro hpre
    simp only [precondsHold, Bool.and_eq_true] at hpre
    obtain ⟨⟨⟨⟨⟨⟨hreq, hxp⟩, hrep⟩, hne⟩, hsu⟩, hap⟩, ham⟩ := hpre
    cases report with
    | none => simp at hrep
    | some content =>
      cases collected_failures with
      | nil => simp at hne
      | cons fr frs =>
        unfold enrich_junit_xml
        simp only [hreq, hxp, hsu, hap, ham, Bool.not_true, Bool.false_or,
          Option.isNone_some, List.isEmpty_cons, Bool.or_self, Bool.or_false,
          if_false, Bool.false_eq_true, ite_false]
        cases httpOutcome with
        | requestError msg =>
          refine ⟨by simp, fun ht q hq => ?_, fun msg' heq => by simp⟩
          simp at hq
          simp [hq, ht]
        | ok respFailures =>
          refine ⟨?_, fun ht q hq => ?_, fun msg' heq => by simp at heq⟩
          · cases hb : buildAnalysisMap respFailures [] with
            | error e => simp [hb]
            | ok amap =>
              simp only [hb]
              cases amap with
              | nil => simp
              | cons hd tl => simp
          · cases hb : buildAnalysisMap respFailures [] with
            | error e =>
              simp only [hb] at hq
              simp at hq
              simp [hq, ht]
            | ok amap =>
              simp only [hb] at hq
              cases amap with
              | nil =>
                simp at hq
                simp [hq, ht]
              | cons hd tl =>
                simp at hq
                simp [hq, ht]

/-- Witness for C6: a fully configured session whose single request times
out. -/
theorem C6_single_request_default_timeout_no_retry_witness :
    precondsHold cfgFull [failRec] (some reportDoc) = true ∧
    (enrich_junit_xml cfgFull [failRec] (some reportDoc) (.requestError "timed out")
        none).requests.length = 1 ∧
    (enrich_junit_xml cfgFull [failRec] (some reportDoc) (.requestError "timed out")
        none).fs = ⟨some reportDoc, none⟩ := by
  have h := (C6_single_request_default_timeout_no_retry cfgFull [failRec]
    (some reportDoc) (.requestError "timed out") none).2 (by decide)
  exact ⟨by decide, h.1, (h.2.2 "timed out" rfl).1⟩

/-! ## Claim C8 -/

/-- C8 counterexample: a response whose `failures` list holds one well-formed
object entry followed by one non-object entry makes `enrich_junit_xml` raise
(`AttributeError` from `failure.get`), building no analysis index at all: the
well-formed entry is not converted and the batch fails as a whole, refuting
the per-entry-skip claim for non-object entries. -/
theorem C8_counterexample_non_object_entry_aborts_batch :
    (enrich_junit_xml cfgFull [failRec] (some reportDoc) (.ok respC8) none).raised.isSome
        = true ∧
    (enrich_junit_xml cfgFull [failRec] (some reportDoc) (.ok respC8) none).amap = [] ∧
    (enrich_junit_xml cfgFull [failRec] (some reportDoc) (.ok respC8) none).fs
        = ⟨some reportDoc, none⟩ :=
  ⟨rfl, rfl, rfl⟩

/-- C8 (amended): an object entry with a missing/empty `test_name` or a
missing/empty `analysis` is skipped per-entry — the remaining entries are
still converted exactly as if it were absent — but a non-object entry raises
an uncaught `AttributeError` that aborts the whole batch (the error
propagates out of the response loop, so no entry is converted). -/
theorem C8_per_entry_skip_object_abort_non_object
    (pre post : List RespEntry) (tn descr : String) (oan : Option Analysis)
    (acc : AnalysisMap)
    (hpre : ∀ e ∈ pre, e.isObj = true) :
    buildAnalysisMap (pre ++ RespEntry.obj "" oan :: post) acc
        = buildAnalysisMap (pre ++ post) acc ∧
    buildAnalysisMap (pre ++ RespEntry.obj tn none :: post) acc
        = buildAnalysisMap (pre ++ post) acc ∧
    buildAnalysisMap (pre ++ RespEntry.nonObj descr :: post) acc
        = Except.error ("AttributeError: " ++ descr ++ " has no attribute get") := by
  induction pre generalizing acc with
  | nil =>
    refine ⟨?_, ?_, rfl⟩
    · cases oan with
      | none => rfl
      | some analysis => simp [buildAnalysisMap]
    · rfl
  | cons e rest ih =>
    have he : e.isObj = true := hpre e (by simp)
    have hrest : ∀ e ∈ rest, e.isObj = true := fun x hx => hpre x (by simp [hx])
    cases e with
    | nonObj d => simp [RespEntry.isObj] at he
    | obj tn' oan' =>
      cases oan' with
      | none => simpa [buildAnalysisMap] using ih acc hrest
      | some analysis' =>
        by_cases htn : tn' == "" <;>
          simp [buildAnalysisMap, htn, ih _ hrest]

/-- Witness for C8 (amended): skipping a malformed object entry between two
well-formed ones, and aborting on a non-object entry. -/
theorem C8_per_entry_skip_object_abort_non_object_witness :
    (∀ e ∈ [entryC9], e.isObj = true) ∧
    buildAnalysisMap [entryC9, RespEntry.obj "" none, entryC9] []
        = buildAnalysisMap [entryC9, entryC9] [] ∧
    buildAnalysisMap [entryC9, RespEntry.nonObj "a string entry"] []
        = Except.error ("AttributeError: " ++ "a string entry" ++ " has no attribute get") := by
  have h := C8_per_entry_skip_object_abort_non_object [entryC9] []
    "ignored" "a string entry" none [] (by decide)
  have h2 := C8_per_entry_skip_object_abort_non_object [entryC9] [entryC9]
    "ignored" "a string entry" none [] (by decide)
  exact ⟨by decide, h2.1, h.2.2⟩

/-! ## Structure-preservation lemmas -/

theorem str_data_append (a b : String) : (a ++ b).data = a.data ++ b.data := by
  cases a
  cases b
  rfl

theorem appendSysOut_grows (e t : String) : e.data <+: (appendSysOut e t).data := by
  unfold appendSysOut
  split
  · rw [str_data_append, str_data_append, List.append_assoc]
    exact List.prefix_append _ _
  · next h =>
    have he : e = "" := by simpa using h
    rw [he]
    exact ⟨t.data, rfl⟩

theorem mem_zip_self {l : List Elem} {p : Elem × Elem} (hp : p ∈ List.zip l l) :
    p.1 = p.2 ∧ p.1 ∈ l := by
  induction l with
  | nil => simp [List.zip] at hp
  | cons c cs ih =>
    rw [List.zip_cons_cons] at hp
    rcases List.mem_cons.mp hp with h | h
    · constructor
      · rw [h]
      · rw [h]; exact List.mem_cons_self _ _
    · exact ⟨(ih h).1, List.mem_cons_of_mem _ (ih h).2⟩

theorem mem_zip_map {l : List Elem} {f : Elem → Elem} {p : Elem × Elem}
    (hp : p ∈ List.zip l (l.map f)) : p.2 = f p.1 ∧ p.1 ∈ l := by
  induction l with
  | nil => simp [List.zip] at hp
  | cons c cs ih =>
    rw [List.map_cons, List.zip_cons_cons] at hp
    rcases List.mem_cons.mp hp with h | h
    · constructor
      · rw [h]
      · rw [h]; exact List.mem_cons_self _ _
    · exact ⟨(ih h).1, List.mem_cons_of_mem _ (ih h).2⟩

theorem extends_intro {t : String} {a : List (String × String)} {x x' : String}
    {cs ds : List Elem} (hx : x.data <+: x'.data) (h : LExt cs ds) :
    Extends ⟨t, a, x, cs⟩ ⟨t, a, x', ds⟩ := by
  obtain ⟨ext, rest, rfl, hl, hz⟩ := h
  exact Extends.mk t a x x' cs ext rest hx hl hz

theorem extends_elim {z f : Elem} (h : Extends z f) :
    f.tag = z.tag ∧ f.attrs = z.attrs ∧ z.text.data <+: f.text.data ∧
      LExt z.children f.children := by
  cases h with
  | mk t a x x' cs ext rest hx hl hz =>
    exact ⟨rfl, rfl, hx, ext, rest, rfl, hl, hz⟩

theorem extends_refl (e : Elem) : Extends e e := by
  refine elemInd (fun e => Extends e e) (fun t a x cs ih => ?_) e
  have h := Extends.mk t a x x cs cs [] (List.prefix_refl _) rfl
    (fun p hp => by
      obtain ⟨h1, h2⟩ := mem_zip_self hp
      rw [← h1]
      exact ih p.1 h2)
  rw [List.append_nil] at h
  exact h

theorem lext_of_pointwise {cs : List Elem} {f : Elem → Elem}
    (h : ∀ c ∈ cs, Extends c (f c)) : LExt cs (cs.map f) := by
  refine ⟨cs.map f, [], by simp, by simp, fun p hp => ?_⟩
  obtain ⟨h1, h2⟩ := mem_zip_map hp
  rw [h1]
  exact h p.1 h2

theorem lext_append {cs ds : List Elem} (h : LExt cs ds) (es : List Elem) :
    LExt cs (ds ++ es) := by
  obtain ⟨ext, rest, rfl, hl, hz⟩ := h
  exact ⟨ext, rest ++ es, by rw [List.append_assoc], hl, hz⟩

theorem extends_append_children {z y : Elem} (h : Extends z y) (zs : List Elem) :
    Extends z { y with children := y.children ++ zs } := by
  cases h with
  | mk t a x x' cs ext rest hx hl hz =>
    have h2 := Extends.mk t a x x' cs ext (rest ++ zs) hx hl hz
    simpa [List.append_assoc] using h2

theorem extends_set_text {z y : Elem} {s : String} (h : Extends z y)
    (hs : y.text.data <+: s.data) : Extends z { y with text := s } := by
  cases h with
  | mk t a x x' cs ext rest hx hl hz =>
    exact Extends.mk t a x s cs ext rest (hx.trans hs) hl hz

theorem lext_updateFirst_aux (p : Elem → Bool) (g : Elem → Elem)
    (hg : ∀ z y, Extends z y → Extends z (g y)) (rest : List Elem) :
    ∀ ext cs, cs.length = ext.length →
      (∀ q ∈ List.zip cs ext, Extends q.1 q.2) →
      LExt cs (updateFirst p g (ext ++ rest)) := by
  intro ext
  induction ext with
  | nil =>
    intro cs hl hz
    have hcs : cs = [] := List.length_eq_zero.mp hl
    subst hcs
    exact ⟨[], updateFirst p g rest, by simp, rfl, by simp⟩
  | cons e es ih =>
    intro cs hl hz
    cases cs with
    | nil => simp at hl
    | cons c cs' =>
      have hl' : cs'.length = es.length := by simpa using hl
      have hzh : Extends c e := by
        have := hz (c, e) (by rw [List.zip_cons_cons]; exact List.mem_cons_self _ _)
        simpa using this
      have hzt : ∀ q ∈ List.zip cs' es, Extends q.1 q.2 := fun q hq =>
        hz q (by rw [List.zip_cons_cons]; exact List.mem_cons_of_mem _ hq)
      by_cases hp : p e
      · refine ⟨g e :: es, rest, ?_, ?_, ?_⟩
        · simp [updateFirst, hp]
        · simp [hl']
        · intro q hq
          rw [List.zip_cons_cons] at hq
          rcases List.mem_cons.mp hq with h1 | h1
          · rw [h1]
            exact hg c e hzh
          · exact hzt q h1
      · obtain ⟨ext2, rest2, heq, hl2, hz2⟩ := ih cs' hl' hzt
        refine ⟨e :: ext2, rest2, ?_, ?_, ?_⟩
        · simp [updateFirst, hp, heq]
        · simp [hl2]
        · intro q hq
          rw [List.zip_cons_cons] at hq
          rcases List.mem_cons.mp hq with h1 | h1
          · rw [h1]
            exact hzh
          · exact hz2 q h1

theorem lext_updateFirst {cs ds : List Elem} (h : LExt cs ds) {p : Elem → Bool}
    {g : Elem → Elem} (hg : ∀ z y, Extends z y → Extends z (g y)) :
    LExt cs (updateFirst p g ds) := by
  obtain ⟨ext, rest, rfl, hl, hz⟩ := h
  exact lext_updateFirst_aux p g hg rest ext cs hl hz

theorem extends_inject_analysis {z tc : Elem} (h : Extends z tc) (analysis : Analysis) :
    Extends z (inject_analysis tc analysis) := by
  have hg1 : ∀ z y, Extends z y → Extends z (applyProps analysis y) := by
    intro z y hzy
    rw [applyProps_eq]
    exact extends_append_children hzy _
  have hg2 : ∀ z y, Extends z y →
      Extends z { y with text := appendSysOut y.text (format_analysis_text analysis) } := by
    intro z y hzy
    exact extends_set_text hzy (appendSysOut_grows _ _)
  cases h with
  | mk t a x x' cs ext rest hx hl hz =>
    have hLE : LExt cs (ext ++ rest) := ⟨ext, rest, rfl, hl, hz⟩
    unfold inject_analysis
    dsimp only
    cases hf : (ext ++ rest).find? isPropsTag with
    | some pr0 =>
      simp only [hf]
      have hL1 : LExt cs (updateFirst isPropsTag (fun pr => applyProps analysis pr)
          (ext ++ rest)) := lext_updateFirst hLE hg1
      by_cases htxt : (format_analysis_text analysis != "") = true
      · simp only [htxt, if_true]
        cases hf2 : (updateFirst isPropsTag (fun pr => applyProps analysis pr)
            (ext ++ rest)).find? isSysOutTag with
        | some so0 =>
          simp only [hf2]
          exact extends_intro hx (lext_updateFirst hL1 hg2)
        | none =>
          simp only [hf2]
          exact extends_intro hx (lext_append hL1 _)
      · simp only [htxt, if_false]
        exact extends_intro hx hL1
    | none =>
      simp only [hf]
      have hL1 : LExt cs ((ext ++ rest)
          ++ [applyProps analysis ⟨"properties", [], "", []⟩]) := lext_append hLE _
      by_cases htxt : (format_analysis_text analysis != "") = true
      · simp only [htxt, if_true]
        cases hf2 : ((ext ++ rest)
            ++ [applyProps analysis ⟨"properties", [], "", []⟩]).find? isSysOutTag with
        | some so0 =>
          simp only [hf2]
          exact extends_intro hx (lext_updateFirst hL1 hg2)
        | none =>
          simp only [hf2]
          exact extends_intro hx (lext_append hL1 _)
      · simp only [htxt, if_false]
        exact extends_intro hx hL1

theorem enrichChildren_eq_map (amap : AnalysisMap) (cs : List Elem) :
    enrichChildren amap cs = cs.map (enrichElem amap) := by
  induction cs with
  | nil => rfl
  | cons c cs ih => simp [enrichChildren, ih]

theorem extends_enrichElem (amap : AnalysisMap) (e : Elem) :
    Extends e (enrichElem amap e) := by
  refine elemInd (fun e => Extends e (enrichElem amap e)) (fun t a x cs ih => ?_) e
  have hbase : Extends ⟨t, a, x, cs⟩ ⟨t, a, x, enrichChildren amap cs⟩ := by
    refine extends_intro (List.prefix_refl _) ?_
    rw [enrichChildren_eq_map]
    exact lext_of_pointwise ih
  show Extends ⟨t, a, x, cs⟩ (enrichElem amap ⟨t, a, x, cs⟩)
  unfold enrichElem
  dsimp only
  by_cases ht : (t == "testcase") = true
  · simp only [ht, if_true]
    cases hlk : List.lookup ((⟨t, a, x, enrichChildren amap cs⟩ : Elem).get "classname",
        (⟨t, a, x, enrichChildren amap cs⟩ : Elem).get "name") amap with
    | some analysis =>
      simp only [hlk]
      exact extends_inject_analysis hbase analysis
    | none =>
      simp only [hlk]
      exact hbase
  · simp only [ht, if_false]
    exact hbase

/-! ## Claim C7 -/

/-- C7: a successful enrichment only extends the document: `Extends` states
that every existing element is kept in place with its tag and all attributes
unchanged and its text only ever appended to (the old text is a prefix of the
new), and that the only other change is appending new children — nothing is
removed, truncated or overwritten.  The serialized document on success is
exactly `enrichElem amap doc` (see `mutateReport`), so the written report
extends the parsed one. -/
theorem C7_enrichment_preserves_document (amap : AnalysisMap) (doc : Elem) :
    Extends doc (enrichElem amap doc) :=
  extends_enrichElem amap doc

/-! ## Claim C2 -/

theorem propsOfList_append (cs ds : List Elem) :
    propsOfList (cs ++ ds) = propsOfList cs ++ propsOfList ds := by
  simp [propsOfList, List.filter_append]

theorem applyProps_tag (analysis : Analysis) (y : Elem) :
    (applyProps analysis y).tag = y.tag := by
  rw [applyProps_eq]

theorem countName_propsOfList_updateFirst_props (analysis : Analysis) (nm : String) :
    ∀ cs : List Elem, (cs.find? isPropsTag).isSome = true →
      countName (propsOfList (updateFirst isPropsTag
          (fun pr => applyProps analysis pr) cs)) nm
        = countName (propsOfList cs) nm + countName (propsToAdd analysis) nm := by
  intro cs
  induction cs with
  | nil => intro hfs; simp [List.find?] at hfs
  | cons c cs ih =>
    intro hfs
    by_cases hc : isPropsTag c = true
    · have htag : isPropsTag (applyProps analysis c) = true := by
        simpa [isPropsTag, applyProps_tag] using hc
      simp only [updateFirst, hc, if_true, propsOfList, List.filter_cons, htag]
      rw [applyProps_eq]
      simp only [List.flatMap_cons]
      rw [show ((List.filter isPropsTag cs).flatMap Elem.children) = propsOfList cs from rfl,
        countName_append, countName_append, countName_append]
      omega
    · have hcb : isPropsTag c = false := by simpa using hc
      have hfs' : (cs.find? isPropsTag).isSome = true := by
        rw [List.find?_cons_of_neg _ (by simp [hcb])] at hfs
        exact hfs
      simp only [updateFirst, hcb, Bool.false_eq_true, if_false, propsOfList,
        List.filter_cons, ite_false]
      exact ih hfs'

theorem propsOfList_updateFirst_sysout (txt : String) :
    ∀ cs : List Elem, propsOfList (updateFirst isSysOutTag
        (fun so => { so with text := appendSysOut so.text txt }) cs)
      = propsOfList cs := by
  intro cs
  induction cs with
  | nil => rfl
  | cons c cs ih =>
    by_cases hc : isSysOutTag c = true
    · have htag : c.tag = "system-out" := by simpa [isSysOutTag] using hc
      simp only [updateFirst, hc, if_true]
      simp [propsOfList, List.filter_cons, isPropsTag, htag]
    · have hcb : isSysOutTag c = false := by simpa using hc
      simp only [updateFirst, hcb, Bool.false_eq_true, if_false]
      by_cases hpc : isPropsTag c = true
      · simp only [propsOfList, List.filter_cons, hpc, if_true, List.flatMap_cons]
        exact congrArg (c.children ++ ·) ih
      · have hpcb : isPropsTag c = false := by simpa using hpc
        simp only [propsOfList, List.filter_cons, hpcb, Bool.false_eq_true, ite_false]
        exact ih

theorem countName_propsOfList_new_props (analysis : Analysis) (nm : String) :
    countName (propsOfList [applyProps analysis ⟨"properties", [], "", []⟩]) nm
      = countName (propsToAdd analysis) nm := by
  rw [applyProps_eq]
  simp [propsOfList, isPropsTag]

theorem countName_propsOfList_new_sysout (txt : String) (nm : String) :
    countName (propsOfList [⟨"system-out", [], txt, []⟩]) nm = 0 := by
  simp [propsOfList, isPropsTag, countName]

theorem propCount_inject (tc : Elem) (analysis : Analysis) (nm : String) :
    propCount (inject_analysis tc analysis) nm
      = propCount tc nm + countName (propsToAdd analysis) nm := by
  unfold inject_analysis propCount propsOf
  dsimp only
  cases hf : tc.children.find? isPropsTag with
  | some pr0 =>
    simp only [hf]
    have h1 : countName (propsOfList (updateFirst isPropsTag
        (fun pr => applyProps analysis pr) tc.children)) nm
        = countName (propsOfList tc.children) nm
          + countName (propsToAdd analysis) nm :=
      countName_propsOfList_updateFirst_props analysis nm tc.children (by simp [hf])
    by_cases htxt : (format_analysis_text analysis != "") = true
    · simp only [htxt, if_true]
      cases hf2 : (updateFirst isPropsTag (fun pr => applyProps analysis pr)
          tc.children).find? isSysOutTag with
      | some so0 =>
        simp only [hf2]
        rw [propsOfList_updateFirst_sysout]
        exact h1
      | none =>
        simp only [hf2]
        rw [propsOfList_append, countName_append,
          countName_propsOfList_new_sysout]
        omega
    · simp only [htxt, if_false]
      exact h1
  | none =>
    simp only [hf]
    have h1 : countName (propsOfList (tc.children
        ++ [applyProps analysis ⟨"properties", [], "", []⟩])) nm
        = countName (propsOfList tc.children) nm
          + countName (propsToAdd analysis) nm := by
      rw [propsOfList_append, countName_append, countName_propsOfList_new_props]
    by_cases htxt : (format_analysis_text analysis != "") = true
    · simp only [htxt, if_true]
      cases hf2 : (tc.children
          ++ [applyProps analysis ⟨"properties", [], "", []⟩]).find? isSysOutTag with
      | some so0 =>
        simp only [hf2]
        rw [propsOfList_updateFirst_sysout]
        exact h1
      | none =>
        simp only [hf2]
        rw [propsOfList_append, countName_append, countName_propsOfList_new_sysout]
        rw [propsOfList_append, countName_append, countName_propsOfList_new_props]
        omega
    · simp only [htxt, if_false]
      exact h1

/-- C2 counterexample: enriching the same document twice with the same
analysis index leaves the matched testcase with TWO `ai_classification`
property elements, not one: `add_property` always appends and never reuses an
existing property with the same name. -/
theorem C2_counterexample_duplicate_property :
    tcC2twice.tag = "testcase" ∧
    tcC2twice.get "classname" = "m" ∧ tcC2twice.get "name" = "t" ∧
    propCount tcC2twice "ai_classification" = 2 ∧
    propCount tcC2twice "ai_classification" ≠ 1 :=
  ⟨rfl, rfl, rfl, by decide, by decide⟩

/-- C2 (amended): re-running enrichment appends the injected properties again
instead of reusing them — injecting the same analysis twice into any testcase
adds exactly two `ai_classification` property elements (one per run) whenever
the classification is non-empty — while free-text content does grow
monotonically: the document after one enrichment run extends (in particular,
every element's text is a prefix of its text in) the document after the
second run. -/
theorem C2_rerun_duplicates_properties_text_monotone (amap : AnalysisMap)
    (doc tc : Elem) (analysis : Analysis)
    (h : (analysis.classification != "") = true) :
    propCount (inject_analysis (inject_analysis tc analysis) analysis)
        "ai_classification"
      = propCount tc "ai_classification" + 2 ∧
    Extends (enrichElem amap doc) (enrichElem amap (enrichElem amap doc)) := by
  constructor
  · rw [propCount_inject, propCount_inject, countName_propsToAdd_classification]
    rw [if_pos h]
  · exact extends_enrichElem amap (enrichElem amap doc)

/-- Witness for C2 (amended) at the concrete double-run fixture. -/
theorem C2_rerun_duplicates_properties_text_monotone_witness :
    (analysisC2.classification != "") = true ∧
    propCount (inject_analysis (inject_analysis tcC2 analysisC2) analysisC2)
        "ai_classification"
      = propCount tcC2 "ai_classification" + 2 :=
  ⟨by decide, (C2_rerun_duplicates_properties_text_monotone amapC2 docC2 tcC2 analysisC2
    (by decide)).1⟩
